import Mathlib

/-!
Shallow embedding of the EPaxos replica core of this repository
(`src/epaxos/helpers.rs`, `src/epaxos/handlers.rs`), together with
theorems checking the natural-language specification against it.

Modelling conventions:
* Rust `HashMap` becomes an association list (`List (key × value)`); the
  map built by `Processor::new` has one entry per replica and updates
  preserve keys, so first-match lookup agrees with the map semantics.
* Rust `HashSet` becomes `Finset`.
* Rust `u64`/`u32` counters become `Nat` (no claim exercises wrap-around).
* A Rust `panic!`/`unwrap`/`expect` path makes the embedded function
  return `none`; handlers therefore return `Option (Processor × List EMsg)`.
* `cfg!(debug_assertions)` code is modelled at release semantics, except
  that `cmds_insert` additionally reports the debug-fatal condition as a
  `Bool` flag.
-/

attribute [local semireducible] List.mergeSort List.merge

namespace EPaxos

/-- Key identifier, `common.rs` `Variable` (a wrapper around `String`). -/
abbrev Variable := String

/-- `common.rs` `Command`. -/
inductive Command where
  | Get (key : Variable)
  | Set (key : Variable) (val : String)
deriving DecidableEq

/-- `Command::key`. -/
def Command.key : Command → Variable
  | .Get k => k
  | .Set k _ => k

/-- `matches!(cmd, Command::Get { .. })`. -/
def Command.isGet : Command → Bool
  | .Get _ => true
  | .Set _ _ => false

/-- `Command::conflicts_with`: same key. -/
def Command.conflicts_with (c other : Command) : Bool :=
  c.key = other.key

/-- `common.rs` `Instance`: names a log slot. -/
structure Instance where
  replica : String
  instance_num : Nat
deriving DecidableEq

/-- `epaxos` `CmdStatus`. -/
inductive CmdStatus where
  | PreAccepted
  | Accepted
  | Committed
  | Executed
deriving DecidableEq

/-- `epaxos` `CmdEntry`: one filled log slot. -/
structure CmdEntry where
  cmd : Command
  seq : Nat
  deps : Finset Instance
  status : CmdStatus
deriving DecidableEq

/-- `epaxos` `CmdMetadata`: client routing data for the leader's own slots. -/
structure CmdMetadata where
  client_id : String
  msg_id : String
deriving DecidableEq

/-- Replica state, the `Processor` struct (fields as used by
`helpers.rs`/`handlers.rs`: the two quorum counters are separate). -/
structure Processor where
  data : List (Variable × String)
  cmds : List (String × List (Option CmdEntry))
  instance_num : Nat
  quorum_ctr : List Nat
  acc_quorum_ctr : List Nat
  app_meta : List CmdMetadata
  replica_list : List String
  replica_name : String
  pending_reads : Finset Instance
deriving DecidableEq

/-! Wire messages (`common.rs`), at the field sets `handlers.rs` uses in
release builds. -/

structure ClientRequest where
  client_id : String
  msg_id : String
  cmd : Command
deriving DecidableEq

inductive CommandResult where
  | GetR (key : Variable) (val : Option String)
  | SetR (key : Variable) (status : Bool)
deriving DecidableEq

structure ClientResponse where
  msg_id : String
  client_id : String
  cmd_result : CommandResult
deriving DecidableEq

structure PreAcceptMsg where
  cmd : Command
  seq : Nat
  deps : Finset Instance
  inst : Instance
deriving DecidableEq

structure PreAcceptOkMsg where
  seq : Nat
  deps : Finset Instance
  inst : Instance
deriving DecidableEq

structure AcceptMsg where
  cmd : Command
  seq : Nat
  deps : Finset Instance
  inst : Instance
deriving DecidableEq

structure AcceptOkMsg where
  inst : Instance
deriving DecidableEq

structure CommitMsg where
  cmd : Command
  seq : Nat
  deps : Finset Instance
  inst : Instance
deriving DecidableEq

inductive EMsg where
  | ClientRequest (m : ClientRequest)
  | ClientResponse (m : ClientResponse)
  | PreAccept (m : PreAcceptMsg)
  | PreAcceptOk (m : PreAcceptOkMsg)
  | Commit (m : CommitMsg)
  | Accept (m : AcceptMsg)
  | AcceptOk (m : AcceptOkMsg)
deriving DecidableEq

/-! Association-list helpers standing in for `HashMap` operations. -/

/-- `HashMap::get`: first entry with the given key. -/
def alGet (l : List (String × α)) (k : String) : Option α :=
  (l.find? (fun q => q.1 = k)).map Prod.snd

/-- `HashMap::get_mut` followed by an in-place update of the value. -/
def alModify (l : List (String × α)) (k : String) (f : α → α) :
    List (String × α) :=
  l.map (fun q => if q.1 = k then (q.1, f q.2) else q)

/-- `HashMap::insert`: replace the value when the key is present,
append otherwise. -/
def mapInsert (l : List (Variable × String)) (k : Variable) (v : String) :
    List (Variable × String) :=
  if (l.find? (fun q => q.1 = k)).isSome then
    l.map (fun q => if q.1 = k then (q.1, v) else q)
  else l ++ [(k, v)]

/-- `self.data.get(&key).cloned()`. -/
def dataGet (l : List (Variable × String)) (k : Variable) : Option String :=
  (l.find? (fun q => q.1 = k)).map Prod.snd

/-! Quorum sizes, `helpers.rs` lines 15-27. -/

/-- `Processor::get_majority`: `len / 2`, floored at 1. -/
def get_majority (p : Processor) : Nat :=
  let res := p.replica_list.length / 2
  if res < 1 then 1 else res

/-- `Processor::fast_quorum`: `len - 2` computed in `i32`, floored at 1. -/
def fast_quorum (p : Processor) : Nat :=
  let res : Int := (p.replica_list.length : Int) - 2
  if res < 1 then 1 else res.toNat

/-! Command log primitives, `helpers.rs` lines 29-87. -/

/-- `Processor::resize_cmds`: grow one replica's slot vector with empty
slots; `none` models the `expect` panic when the replica key is absent. -/
def resize_cmds (p : Processor) (new_size : Nat) (replica : String) :
    Option Processor :=
  match alGet p.cmds replica with
  | none => none
  | some vec =>
      if new_size > vec.length then
        some { p with
          cmds := alModify p.cmds replica
            (fun v => v ++ List.replicate (new_size - v.length) none) }
      else some p

/-- Overwrite the slot addressed by `inst` (callers guarantee it is in
range). -/
def setSlot (p : Processor) (inst : Instance) (e : Option CmdEntry) :
    Processor :=
  { p with
    cmds := alModify p.cmds inst.replica
      (fun v => v.set inst.instance_num e) }

/-- `Processor::lookup`: read the slot for an instance. -/
def lookup (p : Processor) (inst : Instance) : Option CmdEntry :=
  ((alGet p.cmds inst.replica).bind (fun vec => vec.get? inst.instance_num)).bind id

/-- `Processor::cmds_insert`. The returned `Bool` is `true` exactly when
the slot held a different command: the debug build panics there and the
release build drops the new entry, leaving the state unchanged. `none`
models the panics on a missing replica vector. -/
def cmds_insert (p : Processor) (inst : Instance) (cmd_entry : CmdEntry) :
    Option (Processor × Bool) :=
  match resize_cmds p (inst.instance_num + 1) inst.replica with
  | none => none
  | some p1 =>
    match alGet p1.cmds inst.replica with
    | none => none
    | some vec =>
      match vec.get? inst.instance_num with
      | none => none
      | some none => some (setSlot p1 inst (some cmd_entry), false)
      | some (some existing) =>
          if existing.cmd = cmd_entry.cmd then
            some (setSlot p1 inst (some cmd_entry), false)
          else some (p1, true)

/-! Interference analysis, `helpers.rs` `get_interfs` (lines 92-133). -/

/-- Body of the inner loop of `get_interfs` for one filled slot. -/
def interfStep (cmd : Command) (is_read : Bool) (r : String) (i : Nat)
    (c : CmdEntry) (acc : Finset Instance × Nat) : Finset Instance × Nat :=
  if c.cmd.isGet then acc
  else if c.status = .Executed then acc
  else if is_read && c.cmd.isGet then acc
  else if c.cmd.conflicts_with cmd then
    (insert ⟨r, i⟩ acc.1, max acc.2 c.seq)
  else acc

/-- `Processor::get_interfs`: scan every slot of every replica's log,
accumulate the dependency set and the maximum conflicting `seq`, and
return the set together with `max_seq + 1`. -/
def get_interfs (p : Processor) (cmd : Command) : Finset Instance × Nat :=
  let is_read := cmd.isGet
  let res := p.cmds.foldl
    (fun acc rv =>
      rv.2.enum.foldl
        (fun acc2 ic =>
          match ic.2 with
          | none => acc2
          | some c => interfStep cmd is_read rv.1 ic.1 c acc2)
        acc)
    (∅, 0)
  (res.1, res.2 + 1)

/-! Consensus handlers, `handlers.rs` (release-build semantics). -/

/-- `Processor::client_request_handler` (`handlers.rs` lines 10-73). The
`Get` arm of the `match` is an unimplemented stub: it returns an empty
message vector and touches no state. -/
def client_request_handler (p : Processor) (msg : ClientRequest) :
    Option (Processor × List EMsg) :=
  match msg.cmd with
  | .Get _ => some (p, [])
  | .Set _ _ =>
    match alGet p.cmds p.replica_name with
    | none => none
    | some vec =>
      let p := if vec.length > 0 then
          { p with instance_num := p.instance_num + 1 } else p
      let p := { p with
        quorum_ctr := p.quorum_ctr ++ [0]
        acc_quorum_ctr := p.acc_quorum_ctr ++ [0] }
      let ds := get_interfs p msg.cmd
      let entry : CmdEntry := ⟨msg.cmd, ds.2, ds.1, .PreAccepted⟩
      let p := { p with
        cmds := alModify p.cmds p.replica_name (fun v => v ++ [some entry])
        app_meta := p.app_meta ++ [⟨msg.client_id, msg.msg_id⟩] }
      some (p, [.PreAccept ⟨msg.cmd, ds.2, ds.1, ⟨p.replica_name, p.instance_num⟩⟩])

/-- `Processor::pre_accept_handler` (`handlers.rs` lines 75-125): merge
local interference into the proposal, upsert the slot, reply
`PreAcceptOk`. -/
def pre_accept_handler (p : Processor) (m : PreAcceptMsg) :
    Option (Processor × List EMsg) :=
  let ds := get_interfs p m.cmd
  let deps2 := ds.1 ∪ m.deps
  let seq2 := max ds.2 m.seq
  (cmds_insert p m.inst ⟨m.cmd, seq2, deps2, .PreAccepted⟩).map
    (fun r => (r.1, [.PreAcceptOk ⟨seq2, deps2, m.inst⟩]))

/-- Decision block of `pre_accept_ok_handler` (`handlers.rs` lines
207-297): increment the PreAcceptOk counter, then start the slow path on
a majority with a diverged (Accepted) entry, or fast-commit on a fast
quorum with a still-PreAccepted entry. -/
def pre_accept_ok_decide (p1 : Processor) (m : PreAcceptOkMsg)
    (e1 : CmdEntry) : Option (Processor × List EMsg) :=
  let inst := m.inst
  let i := inst.instance_num
  let majority := get_majority p1
  let fq := fast_quorum p1
  match p1.quorum_ctr.get? i with
  | none => none
  | some v =>
    let p2 := { p1 with quorum_ctr := p1.quorum_ctr.set i (v + 1) }
    let ctr := v + 1
    if ctr = majority ∧ e1.status = .Accepted then
      some (p2, [.Accept ⟨e1.cmd, e1.seq, e1.deps, inst⟩])
    else if ctr = majority ∧ majority ≠ fq then
      some (p2, [])
    else if ctr = fq then
      if e1.status = .PreAccepted then
        let p3 := setSlot p2 inst (some { e1 with status := .Committed })
        let commit := EMsg.Commit ⟨e1.cmd, e1.seq, e1.deps, inst⟩
        match e1.cmd with
        | .Set k _ =>
          match p2.app_meta.get? i with
          | none => none
          | some meta =>
            some (p3,
              [commit, .ClientResponse ⟨meta.msg_id, meta.client_id, .SetR k true⟩])
        | .Get _ => some (p3, [commit])
      else some (p2, [])
    else some (p2, [])

/-- Widening step of `pre_accept_ok_handler` (`handlers.rs` lines
199-205): when the reply's `(seq, deps)` differ from the stored entry,
take the max seq, union the deps, and move the entry to `Accepted`. -/
def pre_accept_ok_widen (p : Processor) (m : PreAcceptOkMsg)
    (e : CmdEntry) : Option (Processor × List EMsg) :=
  if e.seq ≠ m.seq ∨ e.deps ≠ m.deps then
    pre_accept_ok_decide
      (setSlot p m.inst
        (some { e with seq := max e.seq m.seq, deps := e.deps ∪ m.deps,
                       status := .Accepted }))
      m { e with seq := max e.seq m.seq, deps := e.deps ∪ m.deps,
                 status := .Accepted }
  else pre_accept_ok_decide p m e

/-- `Processor::pre_accept_ok_handler` (`handlers.rs` lines 127-298):
guards (non-leader, missing slot, already Committed, late reply on an
Accepted slot past majority) followed by widen + decide. -/
def pre_accept_ok_handler (p : Processor) (m : PreAcceptOkMsg) :
    Option (Processor × List EMsg) :=
  if m.inst.replica ≠ p.replica_name then some (p, [])
  else
    match lookup p m.inst with
    | none => none
    | some e =>
      if e.status = .Committed then some (p, [])
      else if e.status = .Accepted then
        match p.quorum_ctr.get? m.inst.instance_num with
        | none => none
        | some v =>
          if v ≥ get_majority p then some (p, [])
          else pre_accept_ok_widen p m e
      else pre_accept_ok_widen p m e

/-- `Processor::commit_handler` (`handlers.rs` lines 299-327): upsert
the slot at `Committed`; no output. -/
def commit_handler (p : Processor) (m : CommitMsg) :
    Option (Processor × List EMsg) :=
  (cmds_insert p m.inst ⟨m.cmd, m.seq, m.deps, .Committed⟩).map
    (fun r => (r.1, []))

/-- `Processor::accept_handler` (`handlers.rs` lines 328-363): upsert
the slot at `Accepted` and reply `AcceptOk`. -/
def accept_handler (p : Processor) (m : AcceptMsg) :
    Option (Processor × List EMsg) :=
  (cmds_insert p m.inst ⟨m.cmd, m.seq, m.deps, .Accepted⟩).map
    (fun r => (r.1, [.AcceptOk ⟨m.inst⟩]))

/-- `Processor::accept_ok_handler` (`handlers.rs` lines 364-424):
increment the separate AcceptOk counter; on reaching majority set the
slot `Committed` and emit only a `Commit` message. -/
def accept_ok_handler (p : Processor) (m : AcceptOkMsg) :
    Option (Processor × List EMsg) :=
  let inst := m.inst
  let i := inst.instance_num
  if inst.replica ≠ p.replica_name then some (p, [])
  else
    match lookup p inst with
    | none => none
    | some e =>
      if e.status = .Committed then some (p, [])
      else
        match p.acc_quorum_ctr.get? i with
        | none => none
        | some v =>
          let p1 := { p with acc_quorum_ctr := p.acc_quorum_ctr.set i (v + 1) }
          if v + 1 = get_majority p then
            some (setSlot p1 inst (some { e with status := .Committed }),
              [.Commit ⟨e.cmd, e.seq, e.deps, inst⟩])
          else some (p1, [])

/-! Execution engine, `helpers.rs` lines 135-492. The Rust loops are
embedded with explicit fuel; every fuel argument is instantiated with a
bound that the corresponding loop can never exceed, so the zero-fuel
fallbacks are unreachable. -/

/-- Lexicographic order on `(replica, instance_num)`, used only to give
`Finset Instance` a computable iteration order (Rust iterates a
`HashSet` in an unspecified order; any fixed order embeds one possible
run). -/
instance : LinearOrder Instance :=
  LinearOrder.lift' (fun i => toLex (i.replica, i.instance_num))
    (fun a b h => by
      cases a
      cases b
      have h' : (_, _) = ((_, _) : String × Nat) := congrArg ofLex h
      simp only [Prod.mk.injEq] at h'
      simp [h'.1, h'.2])

/-- Iteration over a `HashSet<Instance>`, linearized by the order
above. -/
def fsList (s : Finset Instance) : List Instance :=
  s.sort (· ≤ ·)

/-- Iteration over a `HashSet<usize>`. -/
def fsListNat (s : Finset Nat) : List Nat :=
  s.sort (· ≤ ·)

/-- `Processor::mark_executed`; `none` models the panic on a missing
entry. -/
def mark_executed (p : Processor) (inst : Instance) : Option Processor :=
  match lookup p inst with
  | none => none
  | some e => some (setSlot p inst (some { e with status := .Executed }))

/-- Dependency graph as an insertion-ordered association list. -/
abbrev Graph := List (Instance × List Instance)

/-- `graph.get(&v)`. -/
def graphGet (g : Graph) (v : Instance) : Option (List Instance) :=
  (g.find? (fun q => q.1 = v)).map Prod.snd

/-- Worklist loop of `build_dep_graph`: depth-first search from the
root, recording each filled node's dependency list. -/
def build_dep_graph_aux (p : Processor) :
    Nat → List Instance → Finset Instance → Graph → Graph
  | 0, _, _, g => g
  | _ + 1, [], _, g => g
  | fuel + 1, inst :: stack, visited, g =>
    if inst ∈ visited then build_dep_graph_aux p fuel stack visited g
    else
      match lookup p inst with
      | some e =>
          let ds := fsList e.deps
          build_dep_graph_aux p fuel (ds.reverse ++ stack)
            (insert inst visited) (g ++ [(inst, ds)])
      | none => build_dep_graph_aux p fuel stack (insert inst visited) g

/-- Total number of dependency edges stored in the log; bounds the
number of stack pushes of `build_dep_graph`. -/
def total_deps (p : Processor) : Nat :=
  p.cmds.foldl
    (fun a rv =>
      rv.2.foldl
        (fun b s => match s with | some e => b + e.deps.card | none => b) a)
    0

/-- `Processor::build_dep_graph` (`helpers.rs` lines 135-162). -/
def build_dep_graph (p : Processor) (root : Instance) : Graph :=
  build_dep_graph_aux p (total_deps p + 1) [root] ∅ []

/-- Mutable state threaded through Tarjan's algorithm. -/
structure TarjanSt where
  idx : Int
  stack : List Instance
  on_stack : Finset Instance
  indices : List (Instance × Int)
  lowlink : List (Instance × Int)
  result : List (List Instance)

/-- Association-map read for `indices` / `lowlink`. -/
def tGet (l : List (Instance × Int)) (v : Instance) : Option Int :=
  (l.find? (fun q => q.1 = v)).map Prod.snd

/-- Association-map write (replace or append) for `indices` /
`lowlink`. -/
def tPut (l : List (Instance × Int)) (v : Instance) (x : Int) :
    List (Instance × Int) :=
  if (l.find? (fun q => q.1 = v)).isSome then
    l.map (fun q => if q.1 = v then (q.1, x) else q)
  else l ++ [(v, x)]

/-- Pop the Tarjan stack down to `v`, collecting one strongly connected
component (the inner `loop` of `strongconnect`). -/
def popScc : Nat → Instance → List Instance → Finset Instance →
    List Instance → List Instance × Finset Instance × List Instance
  | 0, _, stack, onStk, scc => (stack, onStk, scc)
  | fuel + 1, v, stack, onStk, scc =>
    match stack with
    | [] => ([], onStk, scc)
    | w :: rest =>
      if w = v then (rest, onStk.erase w, scc ++ [w])
      else popScc fuel v rest (onStk.erase w) (scc ++ [w])

/-- `strongconnect` (`helpers.rs` lines 176-229); the fuel bounds the
recursion depth, which never exceeds the number of graph nodes. -/
def strongconnect (g : Graph) : Nat → Instance → TarjanSt → TarjanSt
  | 0, _, st => st
  | fuel + 1, v, st =>
    let st := { st with
      indices := tPut st.indices v st.idx
      lowlink := tPut st.lowlink v st.idx
      idx := st.idx + 1
      stack := v :: st.stack
      on_stack := insert v st.on_stack }
    let st :=
      match graphGet g v with
      | none => st
      | some neighbors =>
        neighbors.foldl
          (fun st w =>
            if (tGet st.indices w).isNone then
              let st1 := strongconnect g fuel w st
              let low_v := (tGet st1.lowlink v).getD 0
              let low_w := (tGet st1.lowlink w).getD 0
              { st1 with lowlink := tPut st1.lowlink v (min low_v low_w) }
            else if w ∈ st.on_stack then
              let low_v := (tGet st.lowlink v).getD 0
              let idx_w := (tGet st.indices w).getD 0
              { st with lowlink := tPut st.lowlink v (min low_v idx_w) }
            else st)
          st
    if tGet st.lowlink v = tGet st.indices v then
      let popped := popScc st.stack.length v st.stack st.on_stack []
      { st with stack := popped.1, on_stack := popped.2.1,
                result := st.result ++ [popped.2.2] }
    else st

/-- `Processor::tarjan_scc` (`helpers.rs` lines 164-247). -/
def tarjan_scc (g : Graph) : List (List Instance) :=
  (g.foldl
    (fun st q =>
      if (tGet st.indices q.1).isNone then
        strongconnect g (g.length + 1) q.1 st
      else st)
    ⟨0, [], ∅, [], [], []⟩).result

/-- Association-map read for the component-id map. -/
def cGet (l : List (Instance × Nat)) (v : Instance) : Option Nat :=
  (l.find? (fun q => q.1 = v)).map Prod.snd

/-- Association-map write for the component-id map. -/
def cPut (l : List (Instance × Nat)) (v : Instance) (x : Nat) :
    List (Instance × Nat) :=
  if (l.find? (fun q => q.1 = v)).isSome then
    l.map (fun q => if q.1 = v then (q.1, x) else q)
  else l ++ [(v, x)]

/-- Kahn worklist of `topo_sort_scc`; the queue holds component ids. -/
def kahnLoop (dag : List (Finset Nat)) :
    Nat → List Nat → List Nat → List Nat → List Nat
  | 0, _, _, order => order
  | _ + 1, [], _, order => order
  | fuel + 1, u :: qrest, indeg, order =>
    let step := (fsListNat (dag.getD u ∅)).foldl
      (fun (acc : List Nat × List Nat) v =>
        let ind1 := acc.1.set v (acc.1.getD v 0 - 1)
        if ind1.getD v 0 = 0 then (ind1, acc.2 ++ [v]) else (ind1, acc.2))
      (indeg, qrest)
    kahnLoop dag fuel step.2 step.1 (order ++ [u])

/-- `Processor::topo_sort_scc` (`helpers.rs` lines 249-307): condense
the graph onto components and Kahn-sort the condensation. -/
def topo_sort_scc (sccs : List (List Instance)) (g : Graph) :
    List (List Instance) :=
  let comp_id := sccs.enum.foldl
    (fun acc iq => iq.2.foldl (fun acc2 v => cPut acc2 v iq.1) acc) []
  let n := sccs.length
  let dag := g.foldl
    (fun dag q =>
      let cv := (cGet comp_id q.1).getD 0
      q.2.foldl
        (fun dag w =>
          let cw := (cGet comp_id w).getD 0
          if cv ≠ cw then dag.set cv (insert cw (dag.getD cv ∅)) else dag)
        dag)
    (List.replicate n (∅ : Finset Nat))
  let indeg := dag.foldl
    (fun ind s => (fsListNat s).foldl (fun ind v => ind.set v (ind.getD v 0 + 1)) ind)
    (List.replicate n 0)
  let q0 := (List.range n).filter (fun i => indeg.getD i 0 = 0)
  (kahnLoop dag (n + 1) q0 indeg []).map (fun i => sccs.getD i [])

/-- Sort key of the per-SCC sort: the stored `seq` (the `unwrap` default
is never consulted, because an unfilled instance only ever forms a
singleton component where no comparison happens). -/
def seqKey (p : Processor) (inst : Instance) : Nat :=
  ((lookup p inst).map CmdEntry.seq).getD 0

/-- Per-SCC ordering step of `execute_cmd` (`helpers.rs` line 348):
`sorted.sort_by_key(|inst| self.lookup(inst).unwrap().seq)`. Rust's
`sort_by_key` is a stable sort, modelled by the stable
`List.mergeSort` on the `seq` key alone. -/
def scc_sort (p : Processor) (scc : List Instance) : List Instance :=
  scc.mergeSort (fun a b => decide (seqKey p a ≤ seqKey p b))

/-- Application of a single instance inside `execute_cmd`
(`helpers.rs` lines 350-385): skip missing or already-Executed entries,
apply a `Set` to the store, emit the client response for an own
`Get`. -/
def exec_inst (p : Processor) (inst : Instance) (out : List EMsg) :
    Option (Processor × List EMsg) :=
  match lookup p inst with
  | none => some (p, out)
  | some e =>
    if e.status = .Executed then some (p, out)
    else
      match e.cmd with
      | .Set k v =>
          (mark_executed { p with data := mapInsert p.data k v } inst).map
            (fun p1 => (p1, out))
      | .Get k =>
          if inst.replica ≠ p.replica_name then some (p, out)
          else
            match p.app_meta.get? inst.instance_num with
            | none => none
            | some meta =>
              (mark_executed
                  { p with pending_reads := p.pending_reads.erase inst } inst).map
                (fun p1 =>
                  (p1, out ++ [.ClientResponse
                    ⟨meta.msg_id, meta.client_id, .GetR k (dataGet p.data k)⟩]))

/-- `Processor::execute_cmd` (`helpers.rs` lines 332-389): build the
dependency graph, find SCCs, topologically sort the condensation, and
apply components in reverse order, each sorted by `seq`. -/
def execute_cmd (p : Processor) (root : Instance) :
    Option (Processor × List EMsg) :=
  let g := build_dep_graph p root
  let sccs := tarjan_scc g
  let order := topo_sort_scc sccs g
  order.reverse.foldlM
    (fun (acc : Processor × List EMsg) scc =>
      (scc_sort acc.1 scc).foldlM
        (fun (acc2 : Processor × List EMsg) inst => exec_inst acc2.1 inst acc2.2)
        acc)
    (p, [])

/-- Readiness of one dependency inside `deps_all_ready`. -/
def dep_ready (p : Processor) (d : Instance) : Bool :=
  match lookup p d with
  | some de => decide (de.status = .Committed) || decide (de.status = .Executed)
  | none => false

/-- `Processor::deps_all_ready` (`helpers.rs` lines 406-424): the slot
is filled and each of its (direct) dependencies is filled at status
Committed or Executed. -/
def deps_all_ready (p : Processor) (inst : Instance) : Bool :=
  match lookup p inst with
  | none => false
  | some e => (fsList e.deps).all (fun d => dep_ready p d)

/-- `Processor::get_pending_reads` (`helpers.rs` lines 391-404). -/
def get_pending_reads (p : Processor) (w : Instance) : List Instance :=
  (fsList p.pending_reads).filter
    (fun r =>
      match lookup p r with
      | some re => decide (w ∈ re.deps)
      | none => false)

/-- `Processor::handle_pending_reads` (`helpers.rs` lines 436-492). -/
def handle_pending_reads (p : Processor) (inst : Instance) :
    Option (Processor × List EMsg) :=
  let prs := get_pending_reads p inst
  if prs = [] then some (p, [])
  else if deps_all_ready p inst then
    match execute_cmd p inst with
    | none => none
    | some q =>
      prs.foldlM
        (fun (acc : Processor × List EMsg) r =>
          if deps_all_ready acc.1 r then
            (execute_cmd acc.1 r).map (fun q2 => (q2.1, acc.2 ++ q2.2))
          else some acc)
        (q.1, [])
  else some (p, [])

end EPaxos

namespace EPaxos

/-- Concrete state for the interference counterexample: replica `r0`
holds one filled, non-Executed `Get` slot on key `a`. -/
def s1 : Processor :=
  { data := []
    cmds := [("r0", [some ⟨.Get "a", 5, ∅, .PreAccepted⟩]), ("r1", [])]
    instance_num := 0
    quorum_ctr := []
    acc_quorum_ctr := []
    app_meta := []
    replica_list := ["r0", "r1"]
    replica_name := "r0"
    pending_reads := ∅ }

/-- C1: the claim says a `Set` candidate must pick up a filled
non-Executed `Get` entry on the same key as a dependency (only read-read
pairs are skipped). The code instead skips every `Get` entry
unconditionally (`helpers.rs` line 101), so on a log holding exactly one
non-Executed `Get` on key `a` the analyzer returns an empty dependency
set and seq `0 + 1` for the candidate `Set` on `a`. -/
theorem c1_get_interfs_skips_get_entries :
    get_interfs s1 (.Set "a" "v") = (∅, 1) ∧
      (⟨"r0", 0⟩ : Instance) ∉ (get_interfs s1 (.Set "a" "v")).1 := by
  decide

/-- C2: `get_majority` returns `max 1 ⌊N / 2⌋` and `fast_quorum` returns
`max 1 (N - 2)` for an ensemble of `N` replicas. -/
theorem c2_quorum_sizes (p : Processor) :
    get_majority p = max 1 (p.replica_list.length / 2) ∧
      (fast_quorum p : Int) = max 1 ((p.replica_list.length : Int) - 2) := by
  constructor
  · unfold get_majority
    dsimp only
    split <;> omega
  · unfold fast_quorum
    dsimp only
    split <;> omega

/-! Shared lemmas about the association-list and slot primitives. -/

theorem alGet_alModify_self (l : List (String × α)) (k : String) (f : α → α) :
    alGet (alModify l k f) k = (alGet l k).map f := by
  induction l with
  | nil => rfl
  | cons hd tl ih =>
    by_cases h : hd.1 = k
    · simp [alGet, alModify, List.find?_cons_of_pos, h]
    · simp only [alGet, alModify, List.map_cons, if_neg h] at ih ⊢
      rw [List.find?_cons_of_neg _ (by simpa using h),
        List.find?_cons_of_neg _ (by simpa using h)]
      exact ih

theorem lookup_setSlot_self (p : Processor) (inst : Instance)
    (o : Option CmdEntry) (vec : List (Option CmdEntry))
    (hv : alGet p.cmds inst.replica = some vec)
    (hlen : inst.instance_num < vec.length) :
    lookup (setSlot p inst o) inst = o := by
  unfold lookup setSlot
  dsimp only
  rw [alGet_alModify_self, hv]
  simp only [Option.map_some', Option.some_bind, List.get?_eq_getElem?,
    List.getElem?_set_self hlen]
  cases o <;> rfl

theorem setSlot_quorum_ctr (p : Processor) (inst : Instance)
    (o : Option CmdEntry) : (setSlot p inst o).quorum_ctr = p.quorum_ctr := rfl

theorem setSlot_acc_quorum_ctr (p : Processor) (inst : Instance)
    (o : Option CmdEntry) :
    (setSlot p inst o).acc_quorum_ctr = p.acc_quorum_ctr := rfl

/-! C6: state where the AcceptOk counter is about to reach majority for
a `Set` instance led by this replica. -/

/-- Leader `r0` of ensemble `{r0, r1, r2}` (majority 1) holding its own
`Set` instance at status Accepted, AcceptOk counter 0. -/
def p6 : Processor :=
  { data := []
    cmds := [("r0", [some ⟨.Set "a" "v", 1, ∅, .Accepted⟩]), ("r1", []), ("r2", [])]
    instance_num := 0
    quorum_ctr := [1]
    acc_quorum_ctr := [0]
    app_meta := [⟨"c1", "m1"⟩]
    replica_list := ["r0", "r1", "r2"]
    replica_name := "r0"
    pending_reads := ∅ }

/-- C6: the claim says that when the AcceptOk counter reaches majority
for a non-Committed slot the handler commits and emits a `Commit`
message plus, for a `Set`, a `ClientResponse`. On `p6` the incremented
counter (1) equals the majority (1) and the command is a `Set`, yet
`accept_ok_handler` emits only the `Commit` message: no
`ClientResponse` is produced on the slow path. -/
theorem c6_accept_ok_no_client_response :
    (accept_ok_handler p6 ⟨⟨"r0", 0⟩⟩).map Prod.snd =
      some [.Commit ⟨.Set "a" "v", 1, ∅, ⟨"r0", 0⟩⟩] ∧
    (accept_ok_handler p6 ⟨⟨"r0", 0⟩⟩).map
        (fun r => (lookup r.1 ⟨"r0", 0⟩).map CmdEntry.status) =
      some (some .Committed) := by
  decide

/-- C7: the claim says a `Get` client request enters the same PreAccept
pipeline as a `Set` (new log instance plus a PreAccept broadcast). The
`Get` arm of `client_request_handler` is an unimplemented stub: for
every state it returns no messages and leaves the state untouched. -/
theorem c7_get_request_noop (p : Processor) (key : Variable)
    (client_id msg_id : String) :
    client_request_handler p ⟨client_id, msg_id, .Get key⟩ = some (p, []) :=
  rfl

/-- C8: a PreAcceptOk delivered to the command leader for a slot that is
already Committed produces no messages and leaves the state exactly
unchanged (no counter increment, no entry modification). -/
theorem c8_late_preacceptok_ignored (p : Processor) (m : PreAcceptOkMsg)
    (e : CmdEntry) (hl : m.inst.replica = p.replica_name)
    (he : lookup p m.inst = some e) (hc : e.status = .Committed) :
    pre_accept_ok_handler p m = some (p, []) := by
  simp [pre_accept_ok_handler, hl, he, hc]

/-- Leader state with a Committed own slot, for the C8 witness. -/
def p8 : Processor :=
  { data := []
    cmds := [("r0", [some ⟨.Set "a" "v", 3, ∅, .Committed⟩]), ("r1", []), ("r2", [])]
    instance_num := 0
    quorum_ctr := [2]
    acc_quorum_ctr := [0]
    app_meta := [⟨"c1", "m1"⟩]
    replica_list := ["r0", "r1", "r2"]
    replica_name := "r0"
    pending_reads := ∅ }

theorem c8_late_preacceptok_ignored_witness :
    pre_accept_ok_handler p8 ⟨3, ∅, ⟨"r0", 0⟩⟩ = some (p8, []) :=
  c8_late_preacceptok_ignored p8 ⟨3, ∅, ⟨"r0", 0⟩⟩
    ⟨.Set "a" "v", 3, ∅, .Committed⟩ rfl (by decide) rfl

/-- Evaluation of `cmds_insert` when the addressed index is in range:
the resize is a no-op and the result is decided by the slot content. -/
theorem cmds_insert_eq_inrange (p : Processor) (inst : Instance)
    (e : CmdEntry) (vec : List (Option CmdEntry))
    (hv : alGet p.cmds inst.replica = some vec)
    (hlen : inst.instance_num < vec.length) :
    cmds_insert p inst e =
      (match vec.get? inst.instance_num with
       | none => none
       | some none => some (setSlot p inst (some e), false)
       | some (some existing) =>
         if existing.cmd = e.cmd then some (setSlot p inst (some e), false)
         else some (p, true)) := by
  unfold cmds_insert resize_cmds
  rw [hv]
  dsimp only
  rw [if_neg (show ¬ inst.instance_num + 1 > vec.length from by omega)]
  dsimp only
  rw [hv]

/-- The grown slot vector produced by `resize_cmds`. -/
def grownCmds (p : Processor) (inst : Instance) :
    List (String × List (Option CmdEntry)) :=
  alModify p.cmds inst.replica
    (fun v => v ++ List.replicate (inst.instance_num + 1 - v.length) none)

/-- Evaluation of `cmds_insert` when the addressed index is past the end
of the slot vector: the vector is extended with empty slots and the
entry is stored. -/
theorem cmds_insert_eq_grow (p : Processor) (inst : Instance)
    (e : CmdEntry) (vec : List (Option CmdEntry))
    (hv : alGet p.cmds inst.replica = some vec)
    (hge : vec.length ≤ inst.instance_num) :
    cmds_insert p inst e =
      some (setSlot { p with cmds := grownCmds p inst } inst (some e), false) := by
  have hv1 : alGet (grownCmds p inst) inst.replica =
      some (vec ++ List.replicate (inst.instance_num + 1 - vec.length) none) := by
    unfold grownCmds
    rw [alGet_alModify_self, hv]
    rfl
  have hslot1 : (vec ++ List.replicate (inst.instance_num + 1 - vec.length)
      none).get? inst.instance_num = some none := by
    rw [List.get?_eq_getElem?, List.getElem?_append_right hge,
      List.getElem?_replicate, if_pos (by omega)]
  unfold cmds_insert resize_cmds
  rw [hv]
  dsimp only
  rw [if_pos (show inst.instance_num + 1 > vec.length from by omega)]
  dsimp only
  show (match alGet (grownCmds p inst) inst.replica with
    | none => none
    | some vec => match vec.get? inst.instance_num with
      | none => none
      | some none =>
          some (setSlot { p with cmds := grownCmds p inst } inst (some e), false)
      | some (some existing) =>
          if existing.cmd = e.cmd then
            some (setSlot { p with cmds := grownCmds p inst } inst (some e), false)
          else some ({ p with cmds := grownCmds p inst }, true)) = _
  rw [hv1]
  dsimp only
  rw [hslot1]

/-- C9: the `cmds_insert` overwrite policy. An empty slot (in range or
past the end of the vector) stores the entry; a slot occupied by the
same command is replaced by the new entry; a slot occupied by a
different command reports the violation (debug-fatal flag `true`) and
leaves the state unchanged, dropping the new entry. -/
theorem c9_cmds_insert_policy :
    (∀ (p : Processor) (inst : Instance) (e : CmdEntry)
        (vec : List (Option CmdEntry)),
        alGet p.cmds inst.replica = some vec →
        vec.get? inst.instance_num = some none →
        ∃ p', cmds_insert p inst e = some (p', false) ∧
          lookup p' inst = some e) ∧
    (∀ (p : Processor) (inst : Instance) (e : CmdEntry)
        (vec : List (Option CmdEntry)),
        alGet p.cmds inst.replica = some vec →
        vec.length ≤ inst.instance_num →
        ∃ p', cmds_insert p inst e = some (p', false) ∧
          lookup p' inst = some e) ∧
    (∀ (p : Processor) (inst : Instance) (e : CmdEntry)
        (vec : List (Option CmdEntry)) (ex : CmdEntry),
        alGet p.cmds inst.replica = some vec →
        vec.get? inst.instance_num = some (some ex) → ex.cmd = e.cmd →
        ∃ p', cmds_insert p inst e = some (p', false) ∧
          lookup p' inst = some e) ∧
    (∀ (p : Processor) (inst : Instance) (e : CmdEntry)
        (vec : List (Option CmdEntry)) (ex : CmdEntry),
        alGet p.cmds inst.replica = some vec →
        vec.get? inst.instance_num = some (some ex) → ex.cmd ≠ e.cmd →
        cmds_insert p inst e = some (p, true)) := by
  refine ⟨?_, ?_, ?_, ?_⟩
  · intro p inst e vec hv hslot
    obtain ⟨hlen, -⟩ := List.get?_eq_some.mp hslot
    refine ⟨setSlot p inst (some e), ?_, ?_⟩
    · rw [cmds_insert_eq_inrange p inst e vec hv hlen, hslot]
    · exact lookup_setSlot_self p inst (some e) vec hv hlen
  · intro p inst e vec hv hge
    have hv1 : alGet (grownCmds p inst) inst.replica =
        some (vec ++ List.replicate (inst.instance_num + 1 - vec.length) none) := by
      unfold grownCmds
      rw [alGet_alModify_self, hv]
      rfl
    have hlen1 : inst.instance_num <
        (vec ++ List.replicate (inst.instance_num + 1 - vec.length) none).length := by
      simp only [List.length_append, List.length_replicate]
      omega
    exact ⟨setSlot { p with cmds := grownCmds p inst } inst (some e),
      cmds_insert_eq_grow p inst e vec hv hge,
      lookup_setSlot_self { p with cmds := grownCmds p inst } inst (some e) _
        hv1 hlen1⟩
  · intro p inst e vec ex hv hslot hceq
    obtain ⟨hlen, -⟩ := List.get?_eq_some.mp hslot
    refine ⟨setSlot p inst (some e), ?_, ?_⟩
    · rw [cmds_insert_eq_inrange p inst e vec hv hlen, hslot]
      dsimp only
      rw [if_pos hceq]
    · exact lookup_setSlot_self p inst (some e) vec hv hlen
  · intro p inst e vec ex hv hslot hcne
    obtain ⟨hlen, -⟩ := List.get?_eq_some.mp hslot
    rw [cmds_insert_eq_inrange p inst e vec hv hlen, hslot]
    dsimp only
    rw [if_neg hcne]

/-- State with slot `(r1, 0)` filled by a `Set` on key `x`, for the C9
witness. -/
def p9 : Processor :=
  { data := []
    cmds := [("r0", []), ("r1", [some ⟨.Set "x" "1", 1, ∅, .PreAccepted⟩])]
    instance_num := 0
    quorum_ctr := []
    acc_quorum_ctr := []
    app_meta := []
    replica_list := ["r0", "r1"]
    replica_name := "r0"
    pending_reads := ∅ }

theorem c9_cmds_insert_policy_witness :
    (∃ p', cmds_insert p9 ⟨"r1", 1⟩ ⟨.Set "y" "2", 2, ∅, .PreAccepted⟩ =
        some (p', false) ∧
      lookup p' ⟨"r1", 1⟩ = some ⟨.Set "y" "2", 2, ∅, .PreAccepted⟩) ∧
    (∃ p', cmds_insert p9 ⟨"r1", 0⟩ ⟨.Set "x" "1", 5, ∅, .Committed⟩ =
        some (p', false) ∧
      lookup p' ⟨"r1", 0⟩ = some ⟨.Set "x" "1", 5, ∅, .Committed⟩) ∧
    cmds_insert p9 ⟨"r1", 0⟩ ⟨.Set "z" "9", 1, ∅, .PreAccepted⟩ =
      some (p9, true) :=
  ⟨c9_cmds_insert_policy.2.1 p9 ⟨"r1", 1⟩ ⟨.Set "y" "2", 2, ∅, .PreAccepted⟩
      [some ⟨.Set "x" "1", 1, ∅, .PreAccepted⟩] (by decide) (by decide),
    c9_cmds_insert_policy.2.2.1 p9 ⟨"r1", 0⟩ ⟨.Set "x" "1", 5, ∅, .Committed⟩
      [some ⟨.Set "x" "1", 1, ∅, .PreAccepted⟩] ⟨.Set "x" "1", 1, ∅, .PreAccepted⟩
      (by decide) (by decide) (by decide),
    c9_cmds_insert_policy.2.2.2 p9 ⟨"r1", 0⟩ ⟨.Set "z" "9", 1, ∅, .PreAccepted⟩
      [some ⟨.Set "x" "1", 1, ∅, .PreAccepted⟩] ⟨.Set "x" "1", 1, ∅, .PreAccepted⟩
      (by decide) (by decide) (by decide)⟩

/-! C3: the PreAcceptOk quorum counter is monotone and separate from the
AcceptOk counter. -/

/-- A run of consecutive `pre_accept_ok_handler` invocations, keeping
only the state. -/
def runPreAcceptOks (p : Processor) (msgs : List PreAcceptOkMsg) :
    Option Processor :=
  msgs.foldlM (fun st mm => (pre_accept_ok_handler st mm).map Prod.fst) p

theorem ctrAt_le_set_succ (l : List Nat) (i v : Nat)
    (h : l.get? i = some v) (j : Nat) :
    l.getD j 0 ≤ (l.set i (v + 1)).getD j 0 := by
  rcases eq_or_ne j i with rfl | hne
  · obtain ⟨hlt, -⟩ := List.get?_eq_some.mp h
    have h1 : l.getD j 0 = v := by
      rw [List.getD_eq_getElem?_getD, ← List.get?_eq_getElem?, h]
      rfl
    have h2 : (l.set j (v + 1)).getD j 0 = v + 1 := by
      rw [List.getD_eq_getElem?_getD, List.getElem?_set_self hlt]
      rfl
    omega
  · have h3 : (l.set i (v + 1)).getD j 0 = l.getD j 0 := by
      rw [List.getD_eq_getElem?_getD, List.getElem?_set_ne (Ne.symm hne),
        ← List.getD_eq_getElem?_getD]
    omega

/-- Every successful run of the decision block increments the
PreAcceptOk counter at the instance's index by exactly one and leaves
the AcceptOk counters untouched. -/
theorem pre_accept_ok_decide_quorum (p1 : Processor) (m : PreAcceptOkMsg)
    (e1 : CmdEntry) (r : Processor × List EMsg)
    (h : pre_accept_ok_decide p1 m e1 = some r) :
    ∃ v, p1.quorum_ctr.get? m.inst.instance_num = some v ∧
      r.1.quorum_ctr = p1.quorum_ctr.set m.inst.instance_num (v + 1) ∧
      r.1.acc_quorum_ctr = p1.acc_quorum_ctr := by
  unfold pre_accept_ok_decide at h
  dsimp only at h
  cases hq : p1.quorum_ctr.get? m.inst.instance_num with
  | none => rw [hq] at h; exact Option.noConfusion h
  | some v =>
    rw [hq] at h
    dsimp only at h
    refine ⟨v, rfl, ?_⟩
    repeat' split at h
    all_goals
      first
        | exact Option.noConfusion h
        | (simp only [Option.some.injEq] at h
           subst h
           exact ⟨rfl, rfl⟩)

/-- The widening step preserves the counter characterization (it only
rewrites the command slot). -/
theorem pre_accept_ok_widen_quorum (p : Processor) (m : PreAcceptOkMsg)
    (e : CmdEntry) (r : Processor × List EMsg)
    (h : pre_accept_ok_widen p m e = some r) :
    ∃ v, p.quorum_ctr.get? m.inst.instance_num = some v ∧
      r.1.quorum_ctr = p.quorum_ctr.set m.inst.instance_num (v + 1) ∧
      r.1.acc_quorum_ctr = p.acc_quorum_ctr := by
  unfold pre_accept_ok_widen at h
  split at h
  · obtain ⟨v, hq, h1, h2⟩ := pre_accept_ok_decide_quorum _ m _ r h
    exact ⟨v, hq, h1, h2⟩
  · exact pre_accept_ok_decide_quorum _ m _ r h

/-- One `pre_accept_ok_handler` step never decreases any PreAcceptOk
counter entry and never modifies the AcceptOk counters. -/
theorem pre_accept_ok_handler_mono (p : Processor) (m : PreAcceptOkMsg)
    (r : Processor × List EMsg) (h : pre_accept_ok_handler p m = some r) :
    (∀ j, p.quorum_ctr.getD j 0 ≤ r.1.quorum_ctr.getD j 0) ∧
      r.1.acc_quorum_ctr = p.acc_quorum_ctr := by
  unfold pre_accept_ok_handler at h
  split at h
  · simp only [Option.some.injEq] at h
    subst h
    exact ⟨fun j => le_refl _, rfl⟩
  · cases hl : lookup p m.inst with
    | none => rw [hl] at h; exact Option.noConfusion h
    | some e =>
      rw [hl] at h
      dsimp only at h
      split at h
      · simp only [Option.some.injEq] at h
        subst h
        exact ⟨fun j => le_refl _, rfl⟩
      · split at h
        · cases hq : p.quorum_ctr.get? m.inst.instance_num with
          | none => rw [hq] at h; exact Option.noConfusion h
          | some v =>
            rw [hq] at h
            dsimp only at h
            split at h
            · simp only [Option.some.injEq] at h
              subst h
              exact ⟨fun j => le_refl _, rfl⟩
            · obtain ⟨v', hq', h1, h2⟩ := pre_accept_ok_widen_quorum p m e r h
              refine ⟨fun j => ?_, h2⟩
              rw [h1]
              exact ctrAt_le_set_succ _ _ _ hq' j
        · obtain ⟨v', hq', h1, h2⟩ := pre_accept_ok_widen_quorum p m e r h
          refine ⟨fun j => ?_, h2⟩
          rw [h1]
          exact ctrAt_le_set_succ _ _ _ hq' j

/-- `accept_ok_handler` never modifies the PreAcceptOk counters: its
quorum bookkeeping lives in `acc_quorum_ctr`. -/
theorem accept_ok_handler_quorum (p : Processor) (m : AcceptOkMsg)
    (r : Processor × List EMsg) (h : accept_ok_handler p m = some r) :
    r.1.quorum_ctr = p.quorum_ctr := by
  unfold accept_ok_handler at h
  dsimp only at h
  split at h
  · simp only [Option.some.injEq] at h
    subst h
    rfl
  · cases hl : lookup p m.inst with
    | none => rw [hl] at h; exact Option.noConfusion h
    | some e =>
      rw [hl] at h
      dsimp only at h
      split at h
      · simp only [Option.some.injEq] at h
        subst h
        rfl
      · cases hq : p.acc_quorum_ctr.get? m.inst.instance_num with
        | none => rw [hq] at h; exact Option.noConfusion h
        | some v =>
          rw [hq] at h
          dsimp only at h
          split at h
          · simp only [Option.some.injEq] at h
            subst h
            rfl
          · simp only [Option.some.injEq] at h
            subst h
            rfl

/-- C3: across any sequence of `pre_accept_ok_handler` invocations the
PreAcceptOk counter at every index is non-decreasing (it is never reset,
in particular not when the slow path starts), a `pre_accept_ok_handler`
step never touches the AcceptOk counters, and `accept_ok_handler` uses
only the separate AcceptOk counter, never the PreAcceptOk one. -/
theorem c3_counter_monotone :
    (∀ (p : Processor) (msgs : List PreAcceptOkMsg) (q : Processor),
        runPreAcceptOks p msgs = some q →
        ∀ j, p.quorum_ctr.getD j 0 ≤ q.quorum_ctr.getD j 0) ∧
    (∀ (p : Processor) (m : PreAcceptOkMsg) (r : Processor × List EMsg),
        pre_accept_ok_handler p m = some r →
        r.1.acc_quorum_ctr = p.acc_quorum_ctr) ∧
    (∀ (p : Processor) (m : AcceptOkMsg) (r : Processor × List EMsg),
        accept_ok_handler p m = some r →
        r.1.quorum_ctr = p.quorum_ctr) := by
  refine ⟨?_, ?_, ?_⟩
  · intro p msgs
    induction msgs generalizing p with
    | nil =>
      intro q hq j
      simp only [runPreAcceptOks, List.foldlM_nil, pure, Option.some.injEq] at hq
      subst hq
      exact le_refl _
    | cons mm ms ih =>
      intro q hq j
      simp only [runPreAcceptOks, List.foldlM_cons] at hq
      cases hh : pre_accept_ok_handler p mm with
      | none => rw [hh] at hq; exact Option.noConfusion hq
      | some r =>
        rw [hh] at hq
        simp only [Option.map_some', Option.bind_eq_bind, Option.some_bind] at hq
        have step := pre_accept_ok_handler_mono p mm r hh
        exact le_trans (step.1 j) (ih r.1 q hq j)
  · exact fun p m r h => (pre_accept_ok_handler_mono p m r h).2
  · exact accept_ok_handler_quorum

/-- Leader of a five-replica ensemble with one own PreAccepted slot and
counter 0, for the C3 witness. -/
def pW : Processor :=
  { data := []
    cmds := [("r0", [some ⟨.Set "a" "v", 1, ∅, .PreAccepted⟩]),
      ("r1", []), ("r2", []), ("r3", []), ("r4", [])]
    instance_num := 0
    quorum_ctr := [0]
    acc_quorum_ctr := [0]
    app_meta := [⟨"c1", "m1"⟩]
    replica_list := ["r0", "r1", "r2", "r3", "r4"]
    replica_name := "r0"
    pending_reads := ∅ }

/-- Result state of the C3 witness run: the counter advanced to 1. -/
def qW : Processor :=
  { pW with quorum_ctr := [1] }

theorem c3_counter_monotone_witness :
    runPreAcceptOks pW [⟨1, ∅, ⟨"r0", 0⟩⟩] = some qW ∧
      pW.quorum_ctr.getD 0 0 ≤ qW.quorum_ctr.getD 0 0 :=
  ⟨by decide, c3_counter_monotone.1 pW [⟨1, ∅, ⟨"r0", 0⟩⟩] qW (by decide) 0⟩

/-! C4: `deps_all_ready` and transitive versus direct dependencies. -/

/-- Spec-side relation, following the specification's words: `b` is a
transitive dependency of `a`, i.e. reachable from `a` by following
`deps` edges through filled slots. Exists only to state claim C4
against the implementation's `deps_all_ready`. -/
inductive SpecTransDep (s : Processor) : Instance → Instance → Prop where
  | direct (a b : Instance) (e : CmdEntry) :
      lookup s a = some e → b ∈ e.deps → SpecTransDep s a b
  | step (a b c : Instance) (e : CmdEntry) :
      SpecTransDep s a b → lookup s b = some e → c ∈ e.deps →
      SpecTransDep s a c

/-- Claim C4 as stated: `deps_all_ready` is true exactly when the slot
is filled and every transitive dependency is Committed or Executed, and
a false answer makes the caller return without executing. -/
def claimC4 : Prop :=
  (∀ (s : Processor) (R : Instance),
      deps_all_ready s R = true ↔
        ((lookup s R).isSome ∧
          ∀ d, SpecTransDep s R d →
            ∃ e, lookup s d = some e ∧
              (e.status = .Committed ∨ e.status = .Executed))) ∧
  (∀ (s : Processor) (R : Instance),
      deps_all_ready s R = false →
      handle_pending_reads s R = some (s, []))

/-- Chain of three instances on replica `r0`: slot 0 depends on slot 1
(Committed), slot 1 depends on slot 2, and slot 2 is only PreAccepted;
the transitive dependency of slot 0 on slot 2 is not ready. -/
def s4 : Processor :=
  { data := []
    cmds := [("r0",
      [some ⟨.Set "a" "0", 3, {⟨"r0", 1⟩}, .Committed⟩,
       some ⟨.Set "a" "1", 2, {⟨"r0", 2⟩}, .Committed⟩,
       some ⟨.Set "a" "2", 1, ∅, .PreAccepted⟩])]
    instance_num := 2
    quorum_ctr := [0, 0, 0]
    acc_quorum_ctr := [0, 0, 0]
    app_meta := [⟨"c1", "m1"⟩, ⟨"c1", "m2"⟩, ⟨"c1", "m3"⟩]
    replica_list := ["r0"]
    replica_name := "r0"
    pending_reads := ∅ }

/-- C4 counterexample: `deps_all_ready` inspects only the direct
dependencies, so on `s4` it answers `true` for slot 0 although the
transitive dependency `(r0, 2)` is still PreAccepted. -/
theorem c4_transitive_cex : ¬ claimC4 := by
  intro hcl
  obtain ⟨-, hall⟩ := (hcl.1 s4 ⟨"r0", 0⟩).mp (by decide)
  have hreach : SpecTransDep s4 ⟨"r0", 0⟩ ⟨"r0", 2⟩ := by
    refine SpecTransDep.step ⟨"r0", 0⟩ ⟨"r0", 1⟩ ⟨"r0", 2⟩
      ⟨.Set "a" "1", 2, {⟨"r0", 2⟩}, .Committed⟩ ?_ (by decide) (by decide)
    exact SpecTransDep.direct ⟨"r0", 0⟩ ⟨"r0", 1⟩
      ⟨.Set "a" "0", 3, {⟨"r0", 1⟩}, .Committed⟩ (by decide) (by decide)
  obtain ⟨e2, he2, hst⟩ := hall ⟨"r0", 2⟩ hreach
  have hlk : lookup s4 ⟨"r0", 2⟩ = some ⟨.Set "a" "2", 1, ∅, .PreAccepted⟩ := by
    decide
  rw [hlk] at he2
  obtain rfl := Option.some.inj he2
  rcases hst with h | h <;> exact absurd h (by decide)

/-- C4 amended: `deps_all_ready s R` is true exactly when the slot for
`R` is filled and every direct dependency in its `deps` set has a
filled slot at status Committed or Executed; when it answers false,
`handle_pending_reads` returns without executing anything and without
changing the state. -/
theorem c4_direct_deps_ready :
    (∀ (s : Processor) (R : Instance),
        deps_all_ready s R = true ↔
          ∃ e, lookup s R = some e ∧
            ∀ d ∈ e.deps, ∃ de, lookup s d = some de ∧
              (de.status = .Committed ∨ de.status = .Executed)) ∧
    (∀ (s : Processor) (R : Instance),
        deps_all_ready s R = false →
        handle_pending_reads s R = some (s, [])) := by
  constructor
  · intro s R
    unfold deps_all_ready
    cases hl : lookup s R with
    | none => simp
    | some e =>
      simp only [Option.some.injEq]
      constructor
      · intro hall
        refine ⟨e, rfl, ?_⟩
        intro d hd
        have hde := List.all_eq_true.mp hall d ((Finset.mem_sort _).mpr hd)
        unfold dep_ready at hde
        cases hlk : lookup s d with
        | none => rw [hlk] at hde; exact absurd hde (by simp)
        | some de =>
          rw [hlk] at hde
          simp only [Bool.or_eq_true, decide_eq_true_eq] at hde
          exact ⟨de, rfl, hde⟩
      · rintro ⟨e', he', hfa⟩
        subst he'
        refine List.all_eq_true.mpr fun d hd => ?_
        obtain ⟨de, hde, hst⟩ := hfa d ((Finset.mem_sort _).mp hd)
        unfold dep_ready
        rw [hde]
        simp only [Bool.or_eq_true, decide_eq_true_eq]
        exact hst
  · intro s R hfalse
    unfold handle_pending_reads
    dsimp only
    split
    · rfl
    · exact if_neg (show ¬ deps_all_ready s R = true from by simp [hfalse])

/-- Log with no pending reads and an unfilled root, for the C4
witness. -/
def s4e : Processor :=
  { data := []
    cmds := [("r0", [])]
    instance_num := 0
    quorum_ctr := []
    acc_quorum_ctr := []
    app_meta := []
    replica_list := ["r0"]
    replica_name := "r0"
    pending_reads := ∅ }

theorem c4_direct_deps_ready_witness :
    deps_all_ready s4e ⟨"r0", 0⟩ = false ∧
      handle_pending_reads s4e ⟨"r0", 0⟩ = some (s4e, []) :=
  ⟨by decide, c4_direct_deps_ready.2 s4e ⟨"r0", 0⟩ (by decide)⟩

/-! C5: ordering inside one strongly connected component. -/

/-- Lexicographic order on strings via their character lists (the
standard string order, stated computably). -/
abbrev strLt (x y : String) : Prop :=
  x.data < y.data

/-- The tie-break order the claim asserts: ascending `seq`, ties broken
lexicographically on `(replica, instance_num)`. -/
abbrev lexLe (s : Processor) (a b : Instance) : Prop :=
  seqKey s a < seqKey s b ∨
    (seqKey s a = seqKey s b ∧
      (strLt a.replica b.replica ∨
        (a.replica = b.replica ∧ a.instance_num ≤ b.instance_num)))

/-- Claim C5 as stated: the per-SCC sort of `execute_cmd` orders the
members by `seq` with the Instance lexicographic tie-break. -/
def claimC5 : Prop :=
  ∀ (s : Processor) (scc : List Instance),
    (∀ i ∈ scc, (lookup s i).isSome) →
    List.Pairwise (lexLe s) (scc_sort s scc)

/-- Two replicas holding equal-`seq` entries for the tie-break
counterexample. -/
def s5 : Processor :=
  { data := []
    cmds := [("r0", [some ⟨.Set "k" "0", 5, ∅, .Committed⟩]),
      ("r1", [some ⟨.Set "k" "1", 5, ∅, .Committed⟩])]
    instance_num := 0
    quorum_ctr := [0]
    acc_quorum_ctr := [0]
    app_meta := [⟨"c1", "m1"⟩]
    replica_list := ["r0", "r1"]
    replica_name := "r0"
    pending_reads := ∅ }

/-- C5 counterexample: the code sorts an SCC by `seq` alone with a
stable sort; on the member list `[(r1,0), (r0,0)]` with equal seqs the
output keeps `(r1,0)` first, violating the claimed `(replica,
instance_num)` lexicographic tie-break. -/
theorem c5_lex_tiebreak_cex : ¬ claimC5 := by
  intro hcl
  have hsorted := hcl s5 [⟨"r1", 0⟩, ⟨"r0", 0⟩] (by decide)
  have heval : scc_sort s5 [⟨"r1", 0⟩, ⟨"r0", 0⟩] = [⟨"r1", 0⟩, ⟨"r0", 0⟩] :=
    List.mergeSort_of_sorted (by decide)
  rw [heval, List.pairwise_cons] at hsorted
  exact absurd (hsorted.1 ⟨"r0", 0⟩ (by simp)) (by decide)

/-- C5 amended: within each SCC, `execute_cmd` orders the members by
ascending `seq` through a stable sort: the output is a permutation of
the member list, is sorted by `seq`, and any pair already in
`seq`-order keeps its relative position (so equal-`seq` members stay in
the order the SCC computation produced; there is no `(replica,
instance_num)` tie-break). -/
theorem c5_seq_sort (s : Processor) (scc : List Instance) :
    (scc_sort s scc).Perm scc ∧
      List.Pairwise (fun a b => seqKey s a ≤ seqKey s b) (scc_sort s scc) ∧
      (∀ a b : Instance, List.Sublist [a, b] scc → seqKey s a ≤ seqKey s b →
        List.Sublist [a, b] (scc_sort s scc)) := by
  have htrans : ∀ a b c : Instance,
      decide (seqKey s a ≤ seqKey s b) = true →
      decide (seqKey s b ≤ seqKey s c) = true →
      decide (seqKey s a ≤ seqKey s c) = true := fun a b c h1 h2 =>
    decide_eq_true (le_trans (of_decide_eq_true h1) (of_decide_eq_true h2))
  have htotal : ∀ a b : Instance,
      (decide (seqKey s a ≤ seqKey s b) || decide (seqKey s b ≤ seqKey s a))
        = true := by
    intro a b
    rcases Nat.le_total (seqKey s a) (seqKey s b) with h | h <;> simp [h]
  refine ⟨List.mergeSort_perm scc _, ?_, ?_⟩
  · exact (List.sorted_mergeSort htrans htotal scc).imp of_decide_eq_true
  · intro a b hsub hab
    exact List.pair_sublist_mergeSort htrans htotal (decide_eq_true hab) hsub

theorem c5_seq_sort_witness :
    List.Sublist [(⟨"r1", 0⟩ : Instance), ⟨"r0", 0⟩]
      (scc_sort s5 [⟨"r1", 0⟩, ⟨"r0", 0⟩]) :=
  (c5_seq_sort s5 [⟨"r1", 0⟩, ⟨"r0", 0⟩]).2.2 ⟨"r1", 0⟩ ⟨"r0", 0⟩
    (List.Sublist.refl _) (by decide)

/-! C10: frame property of `pre_accept_ok_handler` on a matching
reply. -/

/-- Claim C10 as stated: a PreAcceptOk for a non-Committed slot whose
`(seq, deps)` match the stored entry, with the incremented counter
reaching neither quorum, only increments the counter and emits
nothing. -/
def claimC10 : Prop :=
  ∀ (p : Processor) (m : PreAcceptOkMsg) (r : Processor × List EMsg)
      (e : CmdEntry),
    pre_accept_ok_handler p m = some r →
    m.inst.replica = p.replica_name →
    lookup p m.inst = some e →
    e.status ≠ .Committed →
    e.seq = m.seq → e.deps = m.deps →
    m.inst.instance_num < p.quorum_ctr.length →
    p.quorum_ctr.getD m.inst.instance_num 0 + 1 ≠ get_majority p →
    p.quorum_ctr.getD m.inst.instance_num 0 + 1 ≠ fast_quorum p →
    (r.1 = { p with quorum_ctr := (p.quorum_ctr.set m.inst.instance_num (p.quorum_ctr.getD m.inst.instance_num 0 + 1)) } ∧ r.2 = [])

/-- Leader state whose slot is Accepted with the PreAcceptOk counter
already at majority (ensemble of three, majority 1): the handler
treats a further matching PreAcceptOk as late and drops it without
incrementing. -/
def p10 : Processor :=
  { data := []
    cmds := [("r0", [some ⟨.Set "a" "v", 2, ∅, .Accepted⟩]), ("r1", []), ("r2", [])]
    instance_num := 0
    quorum_ctr := [1]
    acc_quorum_ctr := [0]
    app_meta := [⟨"c1", "m1"⟩]
    replica_list := ["r0", "r1", "r2"]
    replica_name := "r0"
    pending_reads := ∅ }

/-- C10 counterexample: on `p10` all hypotheses of the claim hold (the
slot is Accepted, `(seq, deps)` match, the incremented counter 2 equals
neither majority 1 nor fast quorum 1), yet the handler returns with the
counter unchanged at 1 instead of incrementing it to 2. -/
theorem c10_frame_cex : ¬ claimC10 := by
  intro hcl
  have h := hcl p10 ⟨2, ∅, ⟨"r0", 0⟩⟩ (p10, []) ⟨.Set "a" "v", 2, ∅, .Accepted⟩
    (by decide) rfl (by decide) (by decide) rfl rfl (by decide) (by decide)
    (by decide)
  exact absurd (congrArg Processor.quorum_ctr h.1) (by decide)

/-- C10 amended: the frame property holds once the late-message guard is
excluded: when additionally the slot is not (Accepted with the counter
already at majority), the handler's only effect is the increment of the
PreAcceptOk counter at the instance's index, and it emits nothing. -/
theorem c10_frame_amended (p : Processor) (m : PreAcceptOkMsg) (e : CmdEntry)
    (hrepl : m.inst.replica = p.replica_name)
    (hlk : lookup p m.inst = some e)
    (hcomm : e.status ≠ .Committed)
    (hlate : ¬(e.status = .Accepted ∧
        get_majority p ≤ p.quorum_ctr.getD m.inst.instance_num 0))
    (hseq : e.seq = m.seq) (hdeps : e.deps = m.deps)
    (hlen : m.inst.instance_num < p.quorum_ctr.length)
    (hmaj : p.quorum_ctr.getD m.inst.instance_num 0 + 1 ≠ get_majority p)
    (hfq : p.quorum_ctr.getD m.inst.instance_num 0 + 1 ≠ fast_quorum p) :
    pre_accept_ok_handler p m =
      some ({ p with quorum_ctr := (p.quorum_ctr.set m.inst.instance_num (p.quorum_ctr.getD m.inst.instance_num 0 + 1)) }, []) := by
  have hget : p.quorum_ctr.get? m.inst.instance_num =
      some (p.quorum_ctr.getD m.inst.instance_num 0) := by
    rw [List.get?_eq_getElem?, List.getD_eq_getElem?_getD,
      List.getElem?_eq_getElem hlen]
    rfl
  have hwiden : pre_accept_ok_widen p m e =
      some ({ p with quorum_ctr := (p.quorum_ctr.set m.inst.instance_num (p.quorum_ctr.getD m.inst.instance_num 0 + 1)) }, []) := by
    unfold pre_accept_ok_widen
    rw [if_neg (by simp [hseq, hdeps])]
    unfold pre_accept_ok_decide
    dsimp only
    rw [hget]
    dsimp only
    rw [if_neg (by rintro ⟨h1, -⟩; exact hmaj h1),
      if_neg (by rintro ⟨h1, -⟩; exact hmaj h1), if_neg hfq]
  unfold pre_accept_ok_handler
  rw [if_neg (by simp [hrepl]), hlk]
  dsimp only
  rw [if_neg hcomm]
  by_cases hA : e.status = .Accepted
  · rw [if_pos hA, hget]
    dsimp only
    rw [if_neg (fun hge => hlate ⟨hA, hge⟩)]
    exact hwiden
  · rw [if_neg hA]
    exact hwiden

/-- Leader of a five-replica ensemble, PreAccepted own slot, counter 0,
for the C10 witness (incremented counter 1, majority 2, fast quorum
3). -/
def pA : Processor :=
  { data := []
    cmds := [("r0", [some ⟨.Set "a" "v", 1, ∅, .PreAccepted⟩]),
      ("r1", []), ("r2", []), ("r3", []), ("r4", [])]
    instance_num := 0
    quorum_ctr := [0]
    acc_quorum_ctr := [0]
    app_meta := [⟨"c1", "m1"⟩]
    replica_list := ["r0", "r1", "r2", "r3", "r4"]
    replica_name := "r0"
    pending_reads := ∅ }

theorem c10_frame_amended_witness :
    pre_accept_ok_handler pA ⟨1, ∅, ⟨"r0", 0⟩⟩ =
      some ({ pA with quorum_ctr := (pA.quorum_ctr.set 0 (pA.quorum_ctr.getD 0 0 + 1)) }, []) :=
  c10_frame_amended pA ⟨1, ∅, ⟨"r0", 0⟩⟩ ⟨.Set "a" "v", 1, ∅, .PreAccepted⟩
    rfl (by decide) (by decide) (by decide) rfl rfl (by decide) (by decide)
    (by decide)

end EPaxos
